import Mathlib

/-!
Verification development for the marc-mcp repository: a client for the
marc.info mailing-list archive with extraction of catalog / listing /
message records from rendered pages, a SQLite-backed TTL cache with an
FTS5 full-text index, and a search operation.

The Go sources are shallowly embedded: pure parsing functions become Lean
functions over `List Char` / `String`, the HTML node tree becomes the
mutual inductive `Node`/`NodeList`, and the SQLite tables become explicit
list-of-row states with the triggers modelled as state transformers.
-/

namespace Marc

/-! ## Byte/char level string helpers

The Go code works on byte strings; all inputs of interest are ASCII, so
characters model bytes faithfully.  Helpers are written from the
corresponding `strings` / `regexp` standard-library behaviour used by the
source. -/

/-- Whitespace class of Go's regexp `\s`: `[\t\n\f\r ]`. -/
def isReSpace (c : Char) : Bool :=
  c == ' ' || c == '\t' || c == '\n' || c == '\x0c' || c == '\r'

/-- Whitespace recognised by Go's `strings.TrimSpace` (ASCII part). -/
def isGoSpace (c : Char) : Bool :=
  c == ' ' || c == '\t' || c == '\n' || c == '\x0b' || c == '\x0c' || c == '\r'

/-- Model of `strings.TrimSpace` on the character list. -/
def trimChars (cs : List Char) : List Char :=
  ((cs.dropWhile isGoSpace).reverse.dropWhile isGoSpace).reverse

/-- Model of `strings.TrimSpace`. -/
def trimStr (s : String) : String :=
  String.mk (trimChars s.data)

/-- Model of `strings.Index` (first index where `pat` occurs in `hay`,
`none` for Go's `-1`; the empty pattern matches at index 0). -/
def strIndex (hay pat : List Char) : Option Nat :=
  if pat.isPrefixOf hay then some 0
  else
    match hay with
    | [] => none
    | _ :: t => (strIndex t pat).map (· + 1)

/-- Model of `strings.LastIndex` (largest index where `pat` occurs). -/
def strLastIndex (hay pat : List Char) : Option Nat :=
  (((List.range (hay.length + 1)).filter (fun i => pat.isPrefixOf (hay.drop i)))).getLast?

/-- Model of `strings.Contains`. -/
def containsStr (hay pat : String) : Bool :=
  (strIndex hay.data pat.data).isSome

/-- Model of `strings.HasSuffix`-guarded `strings.TrimSuffix`. -/
def trimSuffixStr (s suf : String) : String :=
  if suf.data.isSuffixOf s.data then String.mk (s.data.take (s.data.length - suf.data.length))
  else s

/-- Split a character list at every occurrence of the character `c`
(model of `strings.Split` with a one-character separator). -/
def splitChar (c : Char) : List Char → List (List Char)
  | [] => [[]]
  | x :: t =>
    match splitChar c t, x == c with
    | r, true => [] :: r
    | [], false => [[x]]
    | h :: r, false => (x :: h) :: r

/-- Model of `strings.Split(s, "\n")`. -/
def splitLines (s : String) : List String :=
  (splitChar '\n' s.data).map String.mk

/-- Model of `strings.Join(lines, "\n")`. -/
def joinLines : List String → String
  | [] => ""
  | [l] => l
  | l :: t => l ++ "\n" ++ joinLines t

/-- ASCII lower-casing, modelling `strings.ToLower` on ASCII input. -/
def toLowerStr (s : String) : String :=
  String.mk (s.data.map Char.toLower)

/-- Model of `strings.HasPrefix`. -/
def startsWithStr (s pre : String) : Bool :=
  pre.data.isPrefixOf s.data

/-! ## The regular expressions of `client.go`

`messageLinkRegex`, `dateRegex` and `messageLineRegex` involve no
backtracking ambiguity (their character classes are disjoint from the
following literals), so each is embedded as a deterministic matcher. -/

/-- Try `dateRegex` = `(\d{4}-\d{2}-\d{2})` anchored at the head of `cs`. -/
def dateAt (cs : List Char) : Option (List Char) :=
  match cs with
  | a :: b :: c :: d :: '-' :: e :: f :: '-' :: g :: h :: _ =>
    if a.isDigit && b.isDigit && c.isDigit && d.isDigit && e.isDigit &&
       f.isDigit && g.isDigit && h.isDigit then
      some [a, b, c, d, '-', e, f, '-', g, h]
    else none
  | _ => none

/-- Model of `dateRegex.FindString` (leftmost match, `none` for no match). -/
def dateFind : List Char → Option (List Char)
  | [] => none
  | c :: t =>
    match dateAt (c :: t) with
    | some d => some d
    | none => dateFind t

/-- Try `messageLinkRegex` = `\?l=([^&]+)&m=(\d+)` anchored at the head,
returning the two capture groups. -/
def linkAt (cs : List Char) : Option (List Char × List Char) :=
  if "?l=".data.isPrefixOf cs then
    let r := cs.drop 3
    let ls := r.takeWhile (fun c => c != '&')
    if ls.isEmpty then none
    else
      let r2 := r.drop ls.length
      if "&m=".data.isPrefixOf r2 then
        let ds := (r2.drop 3).takeWhile Char.isDigit
        if ds.isEmpty then none else some (ls, ds)
      else none
  else none

/-- Model of `messageLinkRegex.FindStringSubmatch` (leftmost match). -/
def linkFind : List Char → Option (List Char × List Char)
  | [] => none
  | c :: t =>
    match linkAt (c :: t) with
    | some r => some r
    | none => linkFind t

/-- Model of `messageLineRegex.MatchString`, where `messageLineRegex` is
`^\s*\d+\.\s+(\d{4}-\d{2}-\d{2})\s+`. -/
def messageLineMatch (cs : List Char) : Bool :=
  let r0 := cs.dropWhile isReSpace
  let ds := r0.takeWhile Char.isDigit
  if ds.isEmpty then false
  else
    match r0.drop ds.length with
    | '.' :: r1 =>
      let sp := r1.takeWhile isReSpace
      if sp.isEmpty then false
      else
        let r2 := r1.drop sp.length
        match dateAt r2 with
        | none => false
        | some _ => !((r2.drop 10).takeWhile isReSpace).isEmpty
    | _ => false

/-- Line predicate used by `parseMessageListFromRaw`. -/
def isMessageLine (line : String) : Bool :=
  messageLineMatch line.data

end Marc

namespace Marc

/-! ## The HTML document model

`golang.org/x/net/html` produces a node tree; the client only inspects
element tags, attributes, text data and child order, so the tree is
embedded as a mutual inductive (children as a dedicated list type keeps
all traversals structurally recursive and kernel-computable). -/

mutual
inductive Node where
  | text : String → Node
  | elem : String → List (String × String) → NodeList → Node
inductive NodeList where
  | nil : NodeList
  | cons : Node → NodeList → NodeList
end

/-- Build a `NodeList` from a plain list (construction convenience). -/
def nodesOf : List Node → NodeList
  | [] => .nil
  | n :: t => .cons n (nodesOf t)

/-- Model of `getAttr`: first attribute with the given key, else `""`. -/
def getAttrL (attrs : List (String × String)) (key : String) : String :=
  match attrs with
  | [] => ""
  | (k, v) :: t => if k == key then v else getAttrL t key

/-- Model of `getAttr` on a node. -/
def getAttr (n : Node) (key : String) : String :=
  match n with
  | .text _ => ""
  | .elem _ attrs _ => getAttrL attrs key

mutual
/-- Subtree text of a node, in document order (the unparenthesised core
of `extractText`). -/
def textN : Node → String
  | .text s => s
  | .elem _ _ cs => textL cs
def textL : NodeList → String
  | .nil => ""
  | .cons n ns => textN n ++ textL ns
end

/-- Model of `extractText`: concatenated subtree text, trimmed. -/
def extractText (n : Node) : String :=
  trimStr (textN n)

/-! ## URL query parsing

`extractListName` calls `url.Parse(href)` and `u.Query().Get("l")`: the
query is the part after the first `?` (up to a `#` fragment), split on
`&`; `Get` returns the first value for the key, with `+` decoded to a
space and `%XX` hex-decoded (a pair with an invalid escape is dropped). -/

/-- Hex digit value, `none` for a non-hex character (per Go's `ishex` /
`unhex` pair in `net/url`). -/
def hexVal (c : Char) : Option Nat :=
  let n := c.toNat
  if 48 ≤ n && n ≤ 57 then some (n - 48)
  else if 97 ≤ n && n ≤ 102 then some (n - 87)
  else if 65 ≤ n && n ≤ 70 then some (n - 55)
  else none

/-- Model of `url.QueryUnescape` on a query component (`+` to space,
`%XX` decoded; `none` on a malformed escape). -/
def queryUnescape : List Char → Option (List Char)
  | [] => some []
  | '%' :: a :: b :: t =>
    match hexVal a, hexVal b with
    | some ha, some hb => (queryUnescape t).map (Char.ofNat (16 * ha + hb) :: ·)
    | _, _ => none
  | '%' :: _ => none
  | '+' :: t => (queryUnescape t).map (' ' :: ·)
  | c :: t => (queryUnescape t).map (c :: ·)

/-- First value for `key` among `k=v` pairs, per `url.Values.Get`. -/
def queryGet (pairs : List (List Char)) (key : String) : String :=
  match pairs with
  | [] => ""
  | p :: t =>
    let k := p.takeWhile (fun c => c != '=')
    let hasEq := p.length > k.length
    let v := if hasEq then p.drop (k.length + 1) else []
    match queryUnescape k, queryUnescape v with
    | some k', some v' => if k' == key.data then String.mk v' else queryGet t key
    | _, _ => queryGet t key

/-- Model of `extractListName`: the `l` query parameter of an href. -/
def extractListName (href : String) : String :=
  let cs := href.data.takeWhile (fun c => c != '#')
  match strIndex cs ['?'] with
  | none => ""
  | some i => queryGet (splitChar '&' (cs.drop (i + 1))) "l"

/-! ## Catalog extractor (`ListMailingLists` / `extractCategory`) -/

/-- The `marc.MailingList` record. -/
structure MailingList where
  name : String
  category : String
deriving DecidableEq, Repr

/-- Scan of a `b` element's children for an `img` whose `alt` contains
`"Group"` (the inner loop of `extractCategory`). -/
def hasGroupImg : NodeList → Bool
  | .nil => false
  | .cons c ns =>
    match c with
    | .elem tag attrs _ =>
      if tag == "img" && containsStr (getAttrL attrs "alt") "Group" then true
      else hasGroupImg ns
    | _ => hasGroupImg ns

/-- Concatenated `Data` of the direct text children (the text-collection
loop of `extractCategory`). -/
def directText : NodeList → String
  | .nil => ""
  | .cons (.text s) ns => s ++ directText ns
  | .cons (.elem _ _ _) ns => directText ns

/-- The child loop of `extractCategory`: the first `b` child containing a
group-marker image yields its trimmed direct text. -/
def extractCategoryL : NodeList → String
  | .nil => ""
  | .cons c ns =>
    match c with
    | .elem tag _ bcs =>
      if tag == "b" && hasGroupImg bcs then trimStr (directText bcs)
      else extractCategoryL ns
    | _ => extractCategoryL ns

/-- Model of `extractCategory` (the argument is the `dt` node). -/
def extractCategory (n : Node) : String :=
  match n with
  | .text _ => ""
  | .elem _ _ cs => extractCategoryL cs

/-- Category update performed at one node by the `walk` closure of
`ListMailingLists`: a `dt` whose `extractCategory` is non-empty replaces
the current category. -/
def catStep (n : Node) (cur : String) : String :=
  match n with
  | .elem tag _ _ =>
    if tag == "dt" then
      let c := extractCategory n
      if c == "" then cur else c
    else cur
  | .text _ => cur

/-- Link test performed at one node by the `walk` closure: an `a` element
whose href has the `?l=` form and a non-empty list parameter yields that
list name. -/
def linkOf (n : Node) : Option String :=
  match n with
  | .elem tag attrs _ =>
    if tag == "a" then
      let href := getAttrL attrs "href"
      if startsWithStr href "?l=" then
        let nm := extractListName href
        if nm == "" then none else some nm
      else none
    else none
  | .text _ => none

/-- Node-local action of the `walk` closure: update the category, then
append a `MailingList` if the node is a valid list link. -/
def step (st : String × List MailingList) (n : Node) : String × List MailingList :=
  let cur := catStep n st.1
  (cur, st.2 ++ ((linkOf n).map (fun nm => MailingList.mk nm cur)).toList)

mutual
/-- The recursive `walk` of `ListMailingLists`, with the mutable
`currentCategory` and output slice made explicit state. -/
def walkN : Node → String × List MailingList → String × List MailingList
  | .text s, st => step st (.text s)
  | .elem t a cs, st => walkL cs (step st (.elem t a cs))
def walkL : NodeList → String × List MailingList → String × List MailingList
  | .nil, st => st
  | .cons n ns, st => walkL ns (walkN n st)
end

/-- Extraction part of `ListMailingLists`: run the walk from the document
root with empty category and empty output. -/
def ListMailingLists (doc : Node) : List MailingList :=
  (walkN doc ("", [])).2

mutual
/-- Document-order (pre-order) flattening of a node tree. -/
def preN : Node → List Node
  | .text s => [.text s]
  | .elem t a cs => .elem t a cs :: preL cs
def preL : NodeList → List Node
  | .nil => []
  | .cons n ns => preN n ++ preL ns
end

/-- Spec-side notion of a category header: a `dt` element recognised by
`extractCategory` with a non-empty trimmed text (its category name). -/
def headerText (n : Node) : Option String :=
  match n with
  | .elem tag _ _ =>
    if tag == "dt" then
      let c := extractCategory n
      if c == "" then none else some c
    else none
  | .text _ => none

/-- Category of the nearest preceding header among `pre` (in order), with
default `d` when none occurs. -/
def nearestCat (pre : List Node) (d : String) : String :=
  ((pre.filterMap headerText).getLast?).getD d

/-- Catalog extraction as the specification words it: one record per
list-selection link in document order, whose category is the nearest
preceding category header's text, or the default when none precedes. -/
def catalogSpecD (ns : List Node) (d : String) : List MailingList :=
  ns.enum.filterMap fun p =>
    (linkOf p.2).map fun nm => MailingList.mk nm (nearestCat (ns.take p.1) d)

/-- Spec-side catalog of a document: default category is the empty
string. -/
def catalogSpec (doc : Node) : List MailingList :=
  catalogSpecD (preN doc) ""

/-- Accumulator form of the walk over an already-flattened node list. -/
def collectA (cat : String) : List Node → List MailingList
  | [] => []
  | n :: ns =>
    ((linkOf n).map (fun nm => MailingList.mk nm (catStep n cat))).toList ++
      collectA (catStep n cat) ns

mutual
/-- The tree walk equals the fold of `step` over the pre-order node
list. -/
theorem walkN_eq : ∀ (n : Node) (st : String × List MailingList),
    walkN n st = (preN n).foldl step st
  | .text s, st => by simp [walkN, preN]
  | .elem t a cs, st => by
    rw [walkN, preN, List.foldl_cons, walkL_eq]
/-- List version of `walkN_eq`. -/
theorem walkL_eq : ∀ (ns : NodeList) (st : String × List MailingList),
    walkL ns st = (preL ns).foldl step st
  | .nil, st => by simp [walkL, preL]
  | .cons n ns, st => by
    rw [walkL, preL, List.foldl_append, walkN_eq, walkL_eq]
end

theorem foldl_step_snd (ns : List Node) :
    ∀ (cat : String) (acc : List MailingList),
      (ns.foldl step (cat, acc)).2 = acc ++ collectA cat ns := by
  induction ns with
  | nil => intro cat acc; simp [collectA]
  | cons n ns ih =>
    intro cat acc
    simp only [List.foldl_cons, step, collectA, ih, List.append_assoc]

theorem catStep_eq_headerText (n : Node) (cat : String) :
    catStep n cat = (headerText n).getD cat := by
  cases n with
  | text s => rfl
  | elem t a cs =>
    simp only [catStep, headerText]
    by_cases ht : (t == "dt") = true
    · simp only [ht, if_true]
      by_cases hc : (extractCategory (.elem t a cs) == "") = true
      · simp [hc]
      · simp [hc]
    · simp [ht]

theorem headerText_eq_none_of_link {n : Node} {nm : String}
    (h : linkOf n = some nm) : headerText n = none := by
  cases n with
  | text s => rfl
  | elem t a cs =>
    simp only [linkOf] at h
    by_cases ht : (t == "a") = true
    · have ht' : t = "a" := by simpa using ht
      subst ht'
      simp [headerText]
    · simp [ht] at h

theorem catStep_of_link {n : Node} {nm : String}
    (h : linkOf n = some nm) (cat : String) : catStep n cat = cat := by
  rw [catStep_eq_headerText, headerText_eq_none_of_link h]
  rfl

theorem getLast?_getD_cons (a : α) (l : List α) (d : α) :
    ((a :: l).getLast?).getD d = (l.getLast?).getD a := by
  cases l with
  | nil => rfl
  | cons b t =>
    rw [List.getLast?_cons_cons]
    have hb : ((b :: t).getLast?).isSome = true :=
      List.getLast?_isSome.mpr (by simp)
    obtain ⟨x, hx⟩ := Option.isSome_iff_exists.mp hb
    rw [hx]
    rfl

theorem nearestCat_cons (n : Node) (l : List Node) (d : String) :
    nearestCat (n :: l) d = nearestCat l ((headerText n).getD d) := by
  unfold nearestCat
  cases hh : headerText n with
  | none => rw [List.filterMap_cons, hh]; rfl
  | some h => rw [List.filterMap_cons, hh, getLast?_getD_cons]; rfl

theorem enumFrom_shift (l : List α) :
    ∀ k : Nat, List.enumFrom (k + 1) l = (List.enumFrom k l).map (fun p => (p.1 + 1, p.2)) := by
  induction l with
  | nil => intro k; rfl
  | cons a t ih =>
    intro k
    rw [List.enumFrom_cons, List.enumFrom_cons, List.map_cons, ih]

theorem enum_cons_shift (n : α) (ns : List α) :
    (n :: ns).enum = (0, n) :: ns.enum.map (fun p => (p.1 + 1, p.2)) := by
  rw [List.enum_cons, List.enum, enumFrom_shift]

theorem catalogSpecD_cons (n : Node) (ns : List Node) (cat : String) :
    catalogSpecD (n :: ns) cat =
      ((linkOf n).map (fun nm => MailingList.mk nm cat)).toList ++
        catalogSpecD ns ((headerText n).getD cat) := by
  unfold catalogSpecD
  rw [enum_cons_shift, List.filterMap_cons, List.filterMap_map]
  have hfun :
      ((fun p : Nat × Node =>
          (linkOf p.2).map fun nm => MailingList.mk nm (nearestCat ((n :: ns).take p.1) cat)) ∘
        fun p : Nat × Node => (p.1 + 1, p.2)) =
      fun p : Nat × Node =>
        (linkOf p.2).map fun nm =>
          MailingList.mk nm (nearestCat (ns.take p.1) ((headerText n).getD cat)) := by
    funext p
    simp only [Function.comp_apply, List.take_succ_cons, nearestCat_cons]
  rw [hfun]
  cases hl : linkOf n with
  | none => simp [List.take_zero, nearestCat]
  | some nm => simp [List.take_zero, nearestCat]

theorem collectA_eq : ∀ (ns : List Node) (cat : String),
    collectA cat ns = catalogSpecD ns cat
  | [], cat => by simp [collectA, catalogSpecD]
  | n :: ns, cat => by
    rw [catalogSpecD_cons, collectA, collectA_eq ns, catStep_eq_headerText]
    cases hl : linkOf n with
    | none => rfl
    | some nm => rw [headerText_eq_none_of_link hl]; rfl

/-- Claim C6: for every category-index document, the catalog extractor
yields one `MailingList` per list-selection link in document order, and
each record's category is the trimmed text of the nearest preceding
group-marker category header in document order, or the empty string when
no category header precedes the link. -/
theorem c6_catalog_nearest_preceding_header (doc : Node) :
    ListMailingLists doc = catalogSpec doc := by
  unfold ListMailingLists catalogSpec
  rw [walkN_eq, foldl_step_snd, collectA_eq, List.nil_append]

/-! ## Listing extractor (`parseMessageListFromRaw`) -/

/-- The `marc.Message` record. -/
structure Message where
  ID : String
  Subject : String
  Author : String
  Date : String
  List : String
deriving DecidableEq, Repr

/-- Per-line extraction of `parseMessageListFromRaw` after the
`messageLineRegex` test: each `continue` of the Go loop becomes a `none`.
Returns the stub built from the date, the message link, the subject slice
between the anchors and the trimmed text after the last close-tag. -/
def lineToMessage (list : String) (line : String) : Option Message :=
  let cs := line.data
  match dateFind cs with
  | none => none
  | some d =>
    match linkFind cs with
    | none => none
    | some (_, idCs) =>
      let msgID := String.mk idCs
      match strIndex cs ("?l=" ++ list ++ "&m=" ++ msgID).data with
      | none => none
      | some linkStart =>
        match strIndex (cs.drop linkStart) ['>'] with
        | none => none
        | some rel =>
          let subjectStart := rel + linkStart + 1
          match strIndex (cs.drop subjectStart) "</a>".data with
          | none => none
          | some subjectEnd =>
            let subject := trimStr (String.mk ((cs.drop subjectStart).take subjectEnd))
            let author :=
              match strLastIndex cs "</a>".data with
              | none => ""
              | some la =>
                if la + 4 < cs.length then trimStr (String.mk (cs.drop (la + 4))) else ""
            some ⟨msgID, subject, author, String.mk d, list⟩

/-- Model of `parseMessageListFromRaw`: split into lines, skip lines that
fail `messageLineRegex`, extract a stub from each remaining line when all
extraction steps succeed. -/
def parseMessageListFromRaw (raw list : String) : List Message :=
  (splitLines raw).filterMap fun line =>
    if isMessageLine line then lineToMessage list line else none

/-- Number of lines of a page matching the row-prefix pattern. -/
def countMessageLines (raw : String) : Nat :=
  ((splitLines raw).filter isMessageLine).length

/-- Author field as the claim words it: text after the line's last
close-tag, with trailing pagination labels stripped, then trimmed. -/
def claimAuthor (line : String) : String :=
  match strLastIndex line.data "</a>".data with
  | none => ""
  | some la =>
    trimStr (trimSuffixStr (trimSuffixStr
      (trimStr (String.mk (line.data.drop (la + 4)))) "Next") "Last")

/-- Author field as the code computes it on listing lines: the trimmed
text after the last `</a>`, with no pagination stripping. -/
def codeAuthor (line : String) : String :=
  match strLastIndex line.data "</a>".data with
  | none => ""
  | some la => trimStr (String.mk (line.data.drop (la + 4)))

theorem filterMap_guard_eq_filter (p : String → Bool) (f : String → Option Message) :
    ∀ xs : List String,
      xs.filterMap (fun line => if p line then f line else none) =
        (xs.filter p).filterMap f := by
  intro xs
  induction xs with
  | nil => rfl
  | cons x t ih =>
    by_cases hx : p x
    · simp [List.filterMap_cons, List.filter_cons, hx, ih]
    · simp [List.filterMap_cons, List.filter_cons, hx, ih]

/-- Claim C4 (amended): the listing extractor returns, in page order, one
stub per row-prefix-matching line on which every extraction step
succeeds; a matching line without a usable anchor contributes nothing, so
the number of stubs is at most the number of matching lines. -/
theorem c4_stubs_from_matching_lines (raw list : String) :
    parseMessageListFromRaw raw list =
      ((splitLines raw).filter isMessageLine).filterMap (lineToMessage list) ∧
    (parseMessageListFromRaw raw list).length ≤ countMessageLines raw := by
  have h := filterMap_guard_eq_filter isMessageLine (lineToMessage list) (splitLines raw)
  refine ⟨h, ?_⟩
  unfold parseMessageListFromRaw countMessageLines
  rw [h]
  exact List.length_filterMap_le _ _

/-- Claim C4 counterexample: a page with exactly one line matching the
row-prefix pattern but no message anchor yields zero stubs, not one. -/
theorem c4_counterexample :
    countMessageLines "  1. 2026-02-24  no anchor here" = 1 ∧
    parseMessageListFromRaw "  1. 2026-02-24  no anchor here" "git" = [] := by
  constructor
  · rfl
  · rfl

/-- Claim C5 (amended): the author of every stub produced from a listing
line is the trimmed text after the line's last close-tag; no pagination
labels are stripped on this path. -/
theorem c5_author_after_last_close_tag (list line : String) (m : Message)
    (h : lineToMessage list line = some m) : m.Author = codeAuthor line := by
  simp only [lineToMessage] at h
  repeat' split at h
  all_goals cases h
  all_goals simp only [codeAuthor]
  · rename_i x hla
    rw [hla]
  · rename_i x la hla hlt
    rw [hla]
  · rename_i x la hla hlt
    rw [hla]
    show ("" : String) = trimStr { data := List.drop (la + 4) line.data }
    have hd : line.data.length ≤ la + 4 := by omega
    rw [List.drop_eq_nil_of_le hd]
    rfl

/-- A concrete listing line whose author text ends in the pagination
label `Next`. -/
def c5Line : String :=
  "  1. 2026-02-24  [1] <a href=\"?l=git&m=42\">Fix</a> <a href=\"?l=git&w=2\">git</a>  Alice Next"

/-- Claim C5 counterexample: on `c5Line` the produced stub's author keeps
the trailing `Next`, while the claim's formula strips it. -/
theorem c5_counterexample :
    (parseMessageListFromRaw c5Line "git").map Message.Author = ["Alice Next"] ∧
    claimAuthor c5Line = "Alice" ∧
    ("Alice Next" : String) ≠ "Alice" := by
  refine ⟨rfl, rfl, by decide⟩

/-- Witness for `c5_author_after_last_close_tag` at a concrete line. -/
theorem c5_author_witness :
    (Message.mk "42" "Fix" "Alice Next" "2026-02-24" "git").Author = codeAuthor c5Line := by
  exact c5_author_after_last_close_tag "git" c5Line _ rfl

/-! ## Message extractor (`parseMessage`)

`parseMessage` HTML-parses the raw page (the `x/net/html` parser accepts
any in-memory input, so the only `error` return of the Go function never
fires for string input), collects the text inside `pre` elements, splits
header lines from body at the first blank line and fills the record.  It
is embedded over the parsed document tree. -/

/-- Representation of a Go `map of string to string` as an
insertion-ordered association list with unique keys. -/
abbrev HeaderMap := List (String × String)

/-- The `marc.MessageContent` record. -/
structure MessageContent where
  ID : String
  Subject : String
  Author : String
  Date : String
  List : String
  Body : String
  Headers : HeaderMap
deriving DecidableEq, Repr

mutual
/-- The `pre`-text collection walk of `parseMessage`, with the mutable
`inPre` flag and string builder threaded as state. -/
def preTextN : Node → Bool × String → Bool × String
  | .text s, (inPre, acc) => (inPre, if inPre then acc ++ s else acc)
  | .elem t _ cs, (inPre, acc) =>
    if t == "pre" then
      let r := preTextL cs (true, acc)
      (false, r.2)
    else preTextL cs (inPre, acc)
def preTextL : NodeList → Bool × String → Bool × String
  | .nil, st => st
  | .cons n ns, st => preTextL ns (preTextN n st)
end

/-- Text collected from the document's `pre` blocks. -/
def preContent (doc : Node) : String :=
  (preTextN doc (false, "")).2

/-- Model of the Go map assignment `msg.Headers[key] = value`. -/
def assocSet : List (String × String) → String → String → List (String × String)
  | [], k, v => [(k, v)]
  | (k', v') :: t, k, v =>
    if k' == k then (k, v) :: t else (k', v') :: assocSet t k v

/-- Fold state of the header/body loop of `parseMessage`. -/
structure ParseState where
  inHeaders : Bool
  headers : List (String × String)
  subject : String
  author : String
  date : String
  body : List String
deriving Repr

/-- One iteration of the header/body loop of `parseMessage`. -/
def parseLine (st : ParseState) (line : String) : ParseState :=
  if st.inHeaders then
    if line == "" then { st with inHeaders := false }
    else
      match strIndex line.data [':'] with
      | none => st
      | some idx =>
        if idx > 0 then
          let key := trimStr (String.mk (line.data.take idx))
          let value := trimStr (String.mk (line.data.drop (idx + 1)))
          let st := { st with headers := assocSet st.headers key value }
          if toLowerStr key == "subject" then { st with subject := value }
          else if toLowerStr key == "from" then { st with author := value }
          else if toLowerStr key == "date" then { st with date := value }
          else st
        else st
  else { st with body := st.body ++ [line] }

/-- Model of `parseMessage` over the parsed document (the HTML parse of
the raw input, which never fails for in-memory strings, is the embedding
boundary). -/
def parseMessage (doc : Node) (list messageID : String) : MessageContent :=
  let lines := splitLines (preContent doc)
  let st := lines.foldl parseLine ⟨true, [], "", "", "", []⟩
  { ID := messageID
    Subject := st.subject
    Author := st.author
    Date := st.date
    List := list
    Body := trimStr (joinLines st.body)
    Headers := st.headers }

/-- Claim C2 (amended): message extraction never fails; for an input with
no fixed-width block (no `pre` text at all) it returns — with no error —
a record carrying only the caller-supplied id and list, with empty
subject, author, date, body and headers. -/
theorem c2_no_block_yields_empty_record (doc : Node) (list messageID : String)
    (h : preContent doc = "") :
    parseMessage doc list messageID =
      ⟨messageID, "", "", "", list, "", []⟩ := by
  unfold parseMessage
  rw [h]
  rfl

/-- Claim C2 counterexample: a document with no parseable block produces
a partial record (id and list only) and no failure, where the claim
requires a `ParseFailure` and no record. -/
theorem c2_counterexample :
    parseMessage (.elem "html" [] .nil) "git" "42" =
      ⟨"42", "", "", "", "git", "", []⟩ := by
  rfl

/-- Witness for `c2_no_block_yields_empty_record` at a concrete
document. -/
theorem c2_witness :
    parseMessage (.elem "body" [] (.cons (.text "no block") .nil)) "git" "7" =
      ⟨"7", "", "", "", "git", "", []⟩ := by
  exact c2_no_block_yields_empty_record _ "git" "7" rfl

/-! ## The `Search` operation of the client

`Client.Search` builds a search URL, fetches it from the upstream
archive, and parses the returned document with `parseMessageList`; the
cache is never consulted on this path. -/

/-- Model of `url.QueryEscape` (ASCII byte level): alphanumerics and
`-._~` kept, space to `+`, other bytes percent-encoded. -/
def queryEscape (s : String) : String :=
  String.mk (s.data.flatMap fun c =>
    if c.isAlphanum || c == '-' || c == '_' || c == '.' || c == '~' then [c]
    else if c == ' ' then ['+']
    else ['%', (Nat.digitChar (c.toNat / 16 % 16)).toUpper, (Nat.digitChar (c.toNat % 16)).toUpper])

/-- Model of `extractMessageMetaSimple`: date and author recovered from
the text of the anchor's parent node. -/
def extractMessageMetaSimple (parent : Option Node) : String × String :=
  let lineText :=
    match parent with
    | none => ""
    | some p => extractText p
  let date :=
    match dateFind lineText.data with
    | none => ""
    | some d => String.mk d
  let author :=
    match strLastIndex lineText.data [']'] with
    | none => ""
    | some idx =>
      trimStr (trimSuffixStr (trimSuffixStr
        (trimStr (String.mk (lineText.data.drop (idx + 1)))) "Next") "Last")
  (date, author)

mutual
/-- The walk of `parseMessageList`, with the Go node's `Parent` pointer
supplied by threading the enclosing node. -/
def pmlN (list : String) : Option Node → Node → List Message
  | _, .text _ => []
  | parent, .elem t attrs cs =>
    let here :=
      if t == "a" then
        let href := getAttrL attrs "href"
        match linkFind href.data with
        | none => []
        | some (_, idCs) =>
          let subject := extractText (.elem t attrs cs)
          if subject == "" then []
          else
            let meta := extractMessageMetaSimple parent
            [⟨String.mk idCs, subject, meta.2, meta.1, list⟩]
      else []
    here ++ pmlL list (some (.elem t attrs cs)) cs
def pmlL (list : String) : Option Node → NodeList → List Message
  | _, .nil => []
  | parent, .cons n ns => pmlN list parent n ++ pmlL list parent ns
end

/-- Model of `parseMessageList` (the DOM walk used by `Search`). -/
def parseMessageList (doc : Node) (list : String) : List Message :=
  pmlN list none doc

set_option linter.unusedVariables false in
/-- Model of `Client.Search`: the fetcher is the external collaborator
(path to fetched document, or a transport error), the cache store is the
client's cache handle.  The body never touches `store`. -/
def Search (store : List MessageContent) (fetch : String → Except String Node)
    (list query searchType : String) : Except String (List Message) :=
  let st := if searchType == "" then "s" else searchType
  let path := "?l=" ++ queryEscape list ++ "&s=" ++ queryEscape query ++
    "&q=" ++ queryEscape st ++ "&w=2"
  match fetch path with
  | .error e => .error e
  | .ok doc => .ok (parseMessageList doc list)

/-- Search path string, as built by `Client.Search`. -/
def searchPath (list query searchType : String) : String :=
  let st := if searchType == "" then "s" else searchType
  "?l=" ++ queryEscape list ++ "&s=" ++ queryEscape query ++
    "&q=" ++ queryEscape st ++ "&w=2"

/-- Claim C1 (amended): the search result is a function of the upstream
fetch alone — it is identical for any two cache states, and equals the
parse of the document fetched from the search path. -/
theorem c1_search_is_live_fetch (store1 store2 : List MessageContent)
    (fetch : String → Except String Node) (list query searchType : String) :
    Search store1 fetch list query searchType = Search store2 fetch list query searchType ∧
    Search store1 fetch list query searchType =
      (fetch (searchPath list query searchType)).map (fun doc => parseMessageList doc list) := by
  constructor
  · rfl
  · simp only [Search, searchPath]
    cases fetch ("?l=" ++ queryEscape list ++ "&s=" ++ queryEscape query ++
      "&q=" ++ queryEscape (if searchType == "" then "s" else searchType) ++ "&w=2") <;> rfl

/-- A search-results document containing one message link. -/
def c1Doc : Node :=
  .elem "html" [] (.cons
    (.elem "a" [("href", "?l=git&m=42")] (.cons (.text "Hello") .nil)) .nil)

/-- Claim C1 counterexample: with an empty cache store, a search returns
a message (id 42) that was never fetched and cached, because the result
comes from a live upstream fetch, not from the cache's index. -/
theorem c1_counterexample :
    Search [] (fun _ => .ok c1Doc) "git" "hello" "" =
      .ok [⟨"42", "Hello", "", "", "git"⟩] ∧
    ([] : List MessageContent) = [] := by
  exact ⟨rfl, rfl⟩

end Marc

namespace Cache

/-! ## The cache store

The SQLite tables of the `cache` package become explicit row lists.  The
`message_content` table and its external-content FTS5 index are modelled
together in `Store`: every row carries its SQLite `rowid`, and the
`messages_fts_insert` / `messages_fts_delete` triggers of the schema
become the index updates of the corresponding state transformers.

Two facts of SQLite semantics are modelled because the store relies on
them: `INSERT OR REPLACE` removes a conflicting row and inserts the new
row under a fresh rowid, and the removal fires `DELETE` triggers only
when `PRAGMA recursive_triggers` is on — the store never enables it, so
the replace path removes the content row without its index entry. -/

/-- The `cache.Message` record. -/
structure Message where
  ID : String
  List : String
  Subject : String
  Author : String
  Date : String
deriving DecidableEq, Repr

/-- The `cache.MessageContent` record (header map as an association list
with unique keys, the well-formedness of a Go map). -/
structure MessageContent where
  ID : String
  List : String
  Subject : String
  Author : String
  Date : String
  Body : String
  Headers : Marc.HeaderMap
deriving DecidableEq, Repr

/-- A row of the `message_content` table. -/
structure CRow where
  rowid : Nat
  id : String
  list : String
  subject : String
  author : String
  date : String
  body : String
  headersJ : Marc.HeaderMap
  updatedAt : Int
deriving DecidableEq, Repr

/-- A row of the `messages_fts` index (the indexed columns). -/
structure FtsRow where
  rowid : Nat
  id : String
  list : String
  subject : String
  author : String
  body : String
deriving DecidableEq, Repr

/-- The index entry of a content row, as written by the insert trigger. -/
def ftsOf (r : CRow) : FtsRow :=
  ⟨r.rowid, r.id, r.list, r.subject, r.author, r.body⟩

/-- State of `message_content` and `messages_fts`, plus the next free
rowid. -/
structure Store where
  nextRowid : Nat
  content : List CRow
  fts : List FtsRow
deriving DecidableEq, Repr

/-- A fresh database. -/
def emptyStore : Store := ⟨1, [], []⟩

/-- Bytewise string order (the order in which `encoding/json` emits map
keys). -/
def lexLe : List Char → List Char → Bool
  | [], _ => true
  | _ :: _, [] => false
  | a :: as, b :: bs =>
    if a.toNat < b.toNat then true
    else if b.toNat < a.toNat then false
    else lexLe as bs

/-- Ordered insertion for the key sort of `json.Marshal`. -/
def keyInsert (p : String × String) : Marc.HeaderMap → Marc.HeaderMap
  | [] => [p]
  | q :: t => if lexLe p.1.data q.1.data then p :: q :: t else q :: keyInsert p t

/-- Net effect on the header map of `json.Marshal` followed by
`json.Unmarshal`: the map is serialised with its keys in sorted order and
read back; values and key spelling (case included) are untouched. -/
def marshalHeaders (hs : Marc.HeaderMap) : Marc.HeaderMap :=
  hs.foldr keyInsert []

/-- Model of `Cache.SetMessageContent`: an `INSERT OR REPLACE` on
`message_content`.  The conflicting row (same primary-key `id`) is
removed without firing the delete trigger (recursive triggers are off),
the new row is inserted under a fresh rowid and the insert trigger adds
its index entry. -/
def SetMessageContent (m : MessageContent) (now : Int) (db : Store) : Store :=
  let row : CRow :=
    ⟨db.nextRowid, m.ID, m.List, m.Subject, m.Author, m.Date, m.Body,
      marshalHeaders m.Headers, now⟩
  { nextRowid := db.nextRowid + 1
    content := db.content.filter (fun r => r.id != m.ID) ++ [row]
    fts := db.fts ++ [ftsOf row] }

/-- Model of `Cache.GetMessageContent`: the row with the given id and
list whose `updated_at` is newer than `now - ttl`, with the header JSON
decoded. -/
def GetMessageContent (db : Store) (now ttl : Int) (list id : String) :
    Option MessageContent :=
  (db.content.find? fun r =>
      r.id == id && r.list == list && decide (now - ttl < r.updatedAt)).map
    fun r => ⟨r.id, r.list, r.subject, r.author, r.date, r.body, r.headersJ⟩

/-- Model of the `message_content` pass of `Cache.Cleanup`: a plain SQL
`DELETE` of the expired rows, whose delete trigger removes the matching
index entries. -/
def Cleanup (db : Store) (now ttl : Int) : Store :=
  let dead := db.content.filter fun r => decide (r.updatedAt < now - ttl)
  { nextRowid := db.nextRowid
    content := db.content.filter fun r => !decide (r.updatedAt < now - ttl)
    fts := db.fts.filter fun e => !dead.any fun d => d.rowid == e.rowid }

/-- Store states reachable through the operations that touch
`message_content` (`SetMessages` and `SetMailingLists` write other
tables). -/
inductive Reachable : Store → Prop
  | init : Reachable emptyStore
  | set (m : MessageContent) (now : Int) {db : Store} :
      Reachable db → Reachable (SetMessageContent m now db)
  | cleanup (now ttl : Int) {db : Store} :
      Reachable db → Reachable (Cleanup db now ttl)

/-- Claim C3 (amended): `get` finds a row exactly when a row with the key
exists whose age is strictly below the TTL; a row whose age equals the
TTL exactly is already treated as stale. -/
theorem c3_get_found_iff_strictly_fresh (db : Store) (now ttl : Int) (list id : String) :
    (GetMessageContent db now ttl list id).isSome = true ↔
      ∃ r ∈ db.content, r.id = id ∧ r.list = list ∧ now - r.updatedAt < ttl := by
  unfold GetMessageContent
  rw [Option.isSome_map', List.find?_isSome]
  constructor
  · rintro ⟨r, hr, hp⟩
    simp only [Bool.and_eq_true, beq_iff_eq, decide_eq_true_eq] at hp
    exact ⟨r, hr, hp.1.1, hp.1.2, by omega⟩
  · rintro ⟨r, hr, hid, hlist, hage⟩
    refine ⟨r, hr, ?_⟩
    simp only [Bool.and_eq_true, beq_iff_eq, decide_eq_true_eq]
    exact ⟨⟨hid, hlist⟩, by omega⟩

/-- A content row written at time 0. -/
def c3Row : CRow := ⟨1, "1", "git", "s", "a", "2026-01-01", "b", [], 0⟩

/-- Store holding `c3Row` together with its index entry. -/
def c3Store : Store := ⟨2, [c3Row], [ftsOf c3Row]⟩

/-- Claim C3 counterexample: at `now = 24`, `ttl = 24` the row's age
equals the TTL (`now - timestamp ≤ TTL` holds), yet `get` misses — the
code keeps rows only while `updated_at > now - ttl`, strictly. -/
theorem c3_counterexample :
    ((24 : Int) - c3Row.updatedAt ≤ 24) ∧
    GetMessageContent c3Store 24 24 "git" "1" = none := by
  exact ⟨by decide, rfl⟩

/-- Witness for `c3_get_found_iff_strictly_fresh`: the same store one
tick earlier, when the row is still strictly fresh. -/
theorem c3_witness :
    (GetMessageContent c3Store 23 24 "git" "1").isSome = true := by
  exact (c3_get_found_iff_strictly_fresh c3Store 23 24 "git" "1").mpr
    ⟨c3Row, by decide, rfl, rfl, by decide⟩

/-- Go map lookup on the association-list representation. -/
def lookupHeader (k : String) (hs : Marc.HeaderMap) : Option String :=
  (hs.find? fun p => p.1 == k).map Prod.snd

theorem keyInsert_perm (p : String × String) :
    ∀ l : Marc.HeaderMap, List.Perm (keyInsert p l) (p :: l) := by
  intro l
  induction l with
  | nil => exact List.Perm.refl _
  | cons q t ih =>
    unfold keyInsert
    by_cases hle : lexLe p.1.data q.1.data
    · simp [hle]
    · simp only [hle, if_false]
      exact (ih.cons q).trans (List.Perm.swap p q t)

theorem marshalHeaders_perm (hs : Marc.HeaderMap) : List.Perm (marshalHeaders hs) hs := by
  induction hs with
  | nil => exact List.Perm.refl _
  | cons h t ih =>
    unfold marshalHeaders at ih ⊢
    rw [List.foldr_cons]
    exact (keyInsert_perm h _).trans (ih.cons h)

theorem find?_key_eq_of_perm {l₁ l₂ : Marc.HeaderMap} (h : List.Perm l₁ l₂)
    (hu : (l₁.map Prod.fst).Nodup) (k : String) :
    l₁.find? (fun p => p.1 == k) = l₂.find? (fun p => p.1 == k) := by
  induction h with
  | nil => rfl
  | cons x h ih =>
    rw [List.find?_cons, List.find?_cons, ih (by simpa using hu.of_cons)]
  | swap x y l =>
    rw [List.find?_cons, List.find?_cons, List.find?_cons, List.find?_cons]
    by_cases hy : (y.1 == k) = true
    · by_cases hx : (x.1 == k) = true
      · exfalso
        have hxy : y.1 ≠ x.1 := by
          have := List.nodup_cons.mp hu
          simpa using fun hh => this.1 (by simp [hh])
        exact hxy (by rw [beq_iff_eq] at hx hy; rw [hy, hx])
      · simp [hy, hx]
    · by_cases hx : (x.1 == k) = true
      · simp [hy, hx]
      · simp [hy, hx]
  | trans h1 h2 ih1 ih2 =>
    rw [ih1 hu, ih2 ((h1.map Prod.fst).nodup_iff.mp hu)]

theorem find?_all_false {α : Type} (p : α → Bool) :
    ∀ l : List α, (∀ x ∈ l, p x = false) → l.find? p = none := by
  intro l h
  exact List.find?_eq_none.mpr fun x hx => by simp [h x hx]

/-- Claim C9: writing a `MessageContent` and reading it back for the same
list and id within the TTL window returns the row just written, with all
stub fields, the body and the header map intact — the headers coming back
as a permutation (the key-sorted serialisation) that agrees with the
original map on every lookup, mixed-case keys included. -/
theorem c9_set_get_roundtrip (m : MessageContent) (db : Store) (now t ttl : Int)
    (hfresh : t - now < ttl) (hkeys : (m.Headers.map Prod.fst).Nodup) :
    ∃ v, GetMessageContent (SetMessageContent m now db) t ttl m.List m.ID = some v ∧
      v.ID = m.ID ∧ v.List = m.List ∧ v.Subject = m.Subject ∧ v.Author = m.Author ∧
      v.Date = m.Date ∧ v.Body = m.Body ∧ List.Perm v.Headers m.Headers ∧
      ∀ k, lookupHeader k v.Headers = lookupHeader k m.Headers := by
  unfold GetMessageContent SetMessageContent
  have hskip :
      (db.content.filter (fun r => r.id != m.ID)).find?
        (fun r => r.id == m.ID && r.list == m.List && decide (t - ttl < r.updatedAt)) = none := by
    apply find?_all_false
    intro x hx
    have := (List.mem_filter.mp hx).2
    simp only [bne_iff_ne, ne_eq] at this
    simp [this]
  rw [List.find?_append, hskip, Option.none_or, List.find?_cons]
  have hp :
      ((⟨db.nextRowid, m.ID, m.List, m.Subject, m.Author, m.Date, m.Body,
          marshalHeaders m.Headers, now⟩ : CRow).id == m.ID &&
        (⟨db.nextRowid, m.ID, m.List, m.Subject, m.Author, m.Date, m.Body,
          marshalHeaders m.Headers, now⟩ : CRow).list == m.List &&
        decide (t - ttl <
          (⟨db.nextRowid, m.ID, m.List, m.Subject, m.Author, m.Date, m.Body,
            marshalHeaders m.Headers, now⟩ : CRow).updatedAt)) = true := by
    simp only [Bool.and_eq_true, beq_iff_eq, decide_eq_true_eq]
    exact ⟨⟨trivial, trivial⟩, by omega⟩
  rw [hp]
  refine ⟨_, rfl, rfl, rfl, rfl, rfl, rfl, rfl, marshalHeaders_perm m.Headers, ?_⟩
  intro k
  unfold lookupHeader
  rw [find?_key_eq_of_perm (marshalHeaders_perm m.Headers)
    (((marshalHeaders_perm m.Headers).map Prod.fst).nodup_iff.mpr hkeys) k]

/-! ## Full-text search (`Cache.SearchMessages`)

The SQL query joins `messages_fts` to `message_content` on rowid, keeps
the rows matched by the FTS5 `MATCH`, optionally restricts to one list,
orders by the index's `rank` column and stops after 100 rows.  The FTS5
engine's match predicate and rank are parameters of the embedding. -/

/-- Row pipeline of the search query (before projection): match filter,
rowid join, optional list scope, rank order, limit 100. -/
def searchRows (matchQ : String → FtsRow → Bool) (rank : FtsRow → Int)
    (db : Store) (query list : String) : List (FtsRow × CRow) :=
  let matched := db.fts.filter (matchQ query)
  let joined := matched.filterMap fun e =>
    (db.content.find? fun r => r.rowid == e.rowid).map fun r => (e, r)
  let inScope := if list == "" then joined else joined.filter fun p => p.2.list == list
  (inScope.insertionSort fun a b => rank a.1 ≤ rank b.1).take 100

/-- Model of `Cache.SearchMessages`: the selected columns of the search
query. -/
def SearchMessages (matchQ : String → FtsRow → Bool) (rank : FtsRow → Int)
    (db : Store) (query list : String) : List Message :=
  (searchRows matchQ rank db query list).map fun p =>
    ⟨p.2.id, p.2.list, p.2.subject, p.2.author, p.2.date⟩

/-- Claim C8: search results are capped at 100, every result honours a
non-empty list scope, a query matching no index entry yields the empty
list (and the query itself raises no error), and the produced rows are
ordered by the index's rank. -/
theorem c8_search_shape (matchQ : String → FtsRow → Bool) (rank : FtsRow → Int)
    (db : Store) (query list : String) :
    (SearchMessages matchQ rank db query list).length ≤ 100 ∧
    (∀ m ∈ SearchMessages matchQ rank db query list, list ≠ "" → m.List = list) ∧
    ((∀ e ∈ db.fts, matchQ query e = false) →
      SearchMessages matchQ rank db query list = []) ∧
    List.Pairwise (fun a b => rank a.1 ≤ rank b.1)
      (searchRows matchQ rank db query list) := by
  refine ⟨?_, ?_, ?_, ?_⟩
  · unfold SearchMessages searchRows
    rw [List.length_map]
    exact List.length_take_le _ _
  · intro m hm hlist
    unfold SearchMessages searchRows at hm
    obtain ⟨p, hp, hproj⟩ := List.mem_map.mp hm
    have hp2 := List.mem_of_mem_take hp
    rw [List.mem_insertionSort] at hp2
    have hne : (list == "") = false := by
      simpa using hlist
    rw [if_neg (by simp [hne])] at hp2
    have := (List.mem_filter.mp hp2).2
    rw [← hproj]
    simpa using this
  · intro hmatch
    unfold SearchMessages searchRows
    have hnil : db.fts.filter (matchQ query) = [] :=
      List.filter_eq_nil_iff.mpr fun e he => by simp [hmatch e he]
    rw [hnil]
    cases hc : (list == "") <;> simp [hc]
  · unfold searchRows
    haveI ht : IsTotal (FtsRow × CRow) (fun a b => rank a.1 ≤ rank b.1) :=
      ⟨fun a b => le_total _ _⟩
    haveI htr : IsTrans (FtsRow × CRow) (fun a b => rank a.1 ≤ rank b.1) :=
      ⟨fun _ _ _ hab hbc => le_trans hab hbc⟩
    exact List.Pairwise.sublist (List.take_sublist _ _)
      (List.sorted_insertionSort _ _)

/-- Witness for `c8_search_shape` at a concrete store and query. -/
theorem c8_witness :
    (SearchMessages (fun _ _ => true) (fun _ => 0) emptyStore "fix" "git").length ≤ 100 ∧
    (∀ m ∈ SearchMessages (fun _ _ => true) (fun _ => 0) emptyStore "fix" "git",
      "git" ≠ "" → m.List = "git") ∧
    ((∀ e ∈ emptyStore.fts, (fun _ _ => true) "fix" e = false) →
      SearchMessages (fun _ _ => true) (fun _ => 0) emptyStore "fix" "git" = []) ∧
    List.Pairwise (fun a b => (fun _ => (0 : Int)) a.1 ≤ (fun _ => (0 : Int)) b.1)
      (searchRows (fun _ _ => true) (fun _ => 0) emptyStore "fix" "git") := by
  exact c8_search_shape (fun _ _ => true) (fun _ => 0) emptyStore "fix" "git"

/-! ## Listing query (`Cache.GetMessages`)

`GetMessages` filters the `messages` table by list and freshness, adds a
date prefix filter when a month is supplied — built by slicing the month
string as `month` up to 4 and `month` from 4 — sorts by date descending
and reports a miss when nothing remains.  The Go slice expressions panic
when the month string is non-empty but shorter than 4 bytes; the panic is
modelled as `none`. -/

/-- A row of the `messages` table. -/
structure MRow where
  id : String
  list : String
  subject : String
  author : String
  date : String
  updatedAt : Int
deriving DecidableEq, Repr

/-- Model of `Cache.GetMessages`.  `none` models the Go panic (slice
bounds out of range while building the year-month date prefix); otherwise
the filtered rows, date-descending, with the found flag. -/
def GetMessages (tbl : List MRow) (now ttl : Int) (list month : String) :
    Option (List Message × Bool) :=
  if month == "" then some (runMessagesQuery tbl now ttl list none)
  else if month.length < 4 then none
  else
    some (runMessagesQuery tbl now ttl list
      (some (String.mk (month.data.take 4) ++ "-" ++ String.mk (month.data.drop 4))))

where
  runMessagesQuery (tbl : List MRow) (now ttl : Int) (list : String)
      (pre : Option String) : List Message × Bool :=
    let rows := tbl.filter fun r =>
      r.list == list && decide (now - ttl < r.updatedAt) &&
        (match pre with
         | none => true
         | some p => p.data.isPrefixOf r.date.data)
    let ordered := rows.insertionSort fun a b => lexLe b.date.data a.date.data
    (ordered.map fun r => ⟨r.id, r.list, r.subject, r.author, r.date⟩,
      !ordered.isEmpty)

/-- Model of the Go `time.Now().Format("200601")` month default of
`ListMessagesWithOptions`, for the representable years (at most 9999):
zero-padded four-digit year followed by the zero-padded two-digit
month. -/
def formatYYYYMM (y mo : Nat) : String :=
  String.mk [Nat.digitChar (y / 1000 % 10), Nat.digitChar (y / 100 % 10),
    Nat.digitChar (y / 10 % 10), Nat.digitChar (y % 10),
    Nat.digitChar (mo / 10 % 10), Nat.digitChar (mo % 10)]

/-- Claim C10: the cache's listing query panics exactly when the month
argument is non-empty and shorter than four characters; the client's
default month string always has six characters, so the defaulted path
never panics. -/
theorem c10_get_messages_month_panic (tbl : List MRow) (now ttl : Int)
    (list month : String) (y mo : Nat) :
    (GetMessages tbl now ttl list month = none ↔
      month ≠ "" ∧ month.length < 4) ∧
    (formatYYYYMM y mo).length = 6 ∧
    (GetMessages tbl now ttl list (formatYYYYMM y mo)).isSome = true := by
  refine ⟨?_, rfl, ?_⟩
  · unfold GetMessages
    by_cases h1 : (month == "") = true
    · have : month = "" := by simpa using h1
      simp [h1, this]
    · have hne : month ≠ "" := by simpa using h1
      by_cases h2 : month.length < 4
      · simp [h1, h2, hne]
      · simp [h1, h2, hne]
  · rfl

/-- First write of message id 999 (the cache test's "updates existing
content" scenario). -/
def c7First : MessageContent := ⟨"999", "test", "Initial", "", "", "Initial body", []⟩

/-- Second write of the same id. -/
def c7Second : MessageContent :=
  ⟨"999", "test", "Updated", "", "", "Updated body", [("X-Custom", "value")]⟩

/-- Store after writing id 999 twice. -/
def c7State : Store :=
  SetMessageContent c7Second 1 (SetMessageContent c7First 0 emptyStore)

/-- Claim C7 evaluation at the failing input: after two writes of the
same message id — a reachable state, and the exact sequence of the cache
test `updates existing content` — the FTS index holds an entry (the
replaced row's rowid) with no corresponding `message_content` row: the
`INSERT OR REPLACE` removed the old row without firing the delete
trigger, so index and content disagree. -/
theorem c7_index_desync_reachable :
    Reachable c7State ∧
    ∃ e ∈ c7State.fts, ∀ r ∈ c7State.content, r.rowid ≠ e.rowid := by
  constructor
  · exact .set c7Second 1 (.set c7First 0 .init)
  · decide

/-- Witness for `c9_set_get_roundtrip` at a concrete value with
mixed-case header keys. -/
theorem c9_witness :
    ∃ v, GetMessageContent
        (SetMessageContent ⟨"12345", "git", "S", "A", "D", "B",
          [("Message-ID", "x"), ("message-id", "y")]⟩ 0 emptyStore)
        1 24 "git" "12345" = some v ∧
      v.ID = "12345" ∧ v.List = "git" ∧ v.Subject = "S" ∧ v.Author = "A" ∧
      v.Date = "D" ∧ v.Body = "B" ∧
      List.Perm v.Headers [("Message-ID", "x"), ("message-id", "y")] ∧
      ∀ k, lookupHeader k v.Headers =
        lookupHeader k [("Message-ID", "x"), ("message-id", "y")] := by
  exact c9_set_get_roundtrip
    ⟨"12345", "git", "S", "A", "D", "B", [("Message-ID", "x"), ("message-id", "y")]⟩
    emptyStore 0 1 24 (by decide) (by decide)

end Cache
